import Mathlib

/-!
Verification of the interactive-segmentation evaluation engine of
`fbrs_interactive_segmentation` against its design document.

The repository ships two driver files (`scripts/evaluate_model.py` and a
training configuration) while the engine itself (`isegm.inference`:
clicker oracle, IoU, evaluation loop, NoC aggregation) is referenced but
not present; those parts are modelled from the design document, each such
definition marked `Modelled from the spec:` in its doc comment.  The parts
present in `scripts/evaluate_model.py` are embedded directly from that
source.  Real-valued quantities (IoU values, thresholds) are embedded as
exact rationals.
-/

namespace FBRS

/-! ## Mask geometry -/

/-- A binary mask over an `h × w` pixel grid (spec §3 "Mask": 2-D binary
array over image pixel coordinates). -/
abbrev Mask (h w : Nat) : Type := Fin h → Fin w → Bool

/-- Row-major codes of all pixels of an `h × w` grid: pixel `(r, c)` is
code `r * w + c`, so increasing code order is row-major order. -/
def codes (h w : Nat) : List Nat := List.range (h * w)

/-- Value of a mask at a row-major pixel code (false outside the grid). -/
def maskAt {h w : Nat} (m : Mask h w) (i : Nat) : Bool :=
  if hr : i / w < h then
    if hc : i % w < w then m ⟨i / w, hr⟩ ⟨i % w, hc⟩ else false
  else false

/-- Modelled from the spec: number of true pixels of a mask (the "area"
used by the oracle to compare the two error regions, spec §4.2). -/
def area {h w : Nat} (m : Mask h w) : Nat :=
  ((codes h w).filter (fun i => maskAt m i)).length

/-- Modelled from the spec (§4.1 `error_region`): false-negative mask,
`gt AND NOT pred`. -/
def fnMask {h w : Nat} (gt pred : Mask h w) : Mask h w :=
  fun r c => gt r c && !(pred r c)

/-- Modelled from the spec (§4.1 `error_region`): false-positive mask,
`pred AND NOT gt`. -/
def fpMask {h w : Nat} (gt pred : Mask h w) : Mask h w :=
  fun r c => pred r c && !(gt r c)

/-- Modelled from the spec (§4.1 `iou`): intersection area over union
area, defined as 0 when the union is empty (both masks empty), avoiding
division by zero. -/
def iou {h w : Nat} (pred gt : Mask h w) : ℚ :=
  let inter := area (fun r c => pred r c && gt r c)
  let uni := area (fun r c => pred r c || gt r c)
  if uni = 0 then 0 else (inter : ℚ) / (uni : ℚ)

/-! ## Click oracle -/

/-- Modelled from the spec (§3 "Click"): `(row, col, is_positive,
order_index)`. -/
structure Click where
  row : Nat
  col : Nat
  is_positive : Bool
  order_index : Nat
  deriving DecidableEq, Repr

/-- Squared difference of two naturals (distance along one axis). -/
def sqDiff (a b : Nat) : Nat := Nat.dist a b * Nat.dist a b

/-- Squared Euclidean distance between the pixels with row-major codes
`i` and `j` on a grid of width `w`. -/
def sqDist (w i j : Nat) : Nat := sqDiff (i / w) (j / w) + sqDiff (i % w) (j % w)

/-- Modelled from the spec (§4.2): distance transform of a binary region
mask, at pixel code `i`: the distance to the nearest false pixel of the
region.  Squared Euclidean distance is used; squaring is strictly
monotone, so maxima and exact ties coincide with Euclidean distance.
When the region has no false pixel at all, `(h + w) ^ 2` is returned, a
value larger than any realizable squared distance, making every pixel tie. -/
def distTransform {h w : Nat} (region : Mask h w) (i : Nat) : Nat :=
  ((codes h w).filter (fun j => !(maskAt region j))).foldr
    (fun j acc => min (sqDist w i j) acc) ((h + w) ^ 2)

/-- Modelled from the spec (§4.2): the error region the oracle targets —
the larger-area of the two error masks, ties broken toward the
false-negative region. -/
def chosenRegion {h w : Nat} (gt pred : Mask h w) : Mask h w :=
  if area (fpMask gt pred) ≤ area (fnMask gt pred)
  then fnMask gt pred else fpMask gt pred

/-- First maximizer of `key` in a list: the result attains the maximum of
`key` over the list and, among maximizers, is the earliest element. -/
def argmaxList (key : Nat → Nat) : List Nat → Option Nat
  | [] => none
  | a :: l =>
    match argmaxList key l with
    | none => some a
    | some b => if key a < key b then some b else some a

/-- Modelled from the spec (§4.2 Click Oracle): compute the two error
masks; if both are empty return `none`; otherwise choose the larger-area
error mask (ties toward false-negative), compute the distance transform
of the chosen region, and click the pixel of maximum distance, ties
resolved in row-major order (smallest pixel code first).  Polarity is
positive iff the false-negative region was chosen; `order_index` is the
0-based position the click takes in the history. -/
def next_click {h w : Nat} (gt pred : Mask h w) (click_history : List Click) :
    Option Click :=
  let fn := fnMask gt pred
  let fp := fpMask gt pred
  if area fn = 0 ∧ area fp = 0 then none
  else
    let region := chosenRegion gt pred
    let cand := (codes h w).filter (fun i => maskAt region i)
    match argmaxList (distTransform region) cand with
    | some i =>
        some ⟨i / w, i % w, area fp ≤ area fn, click_history.length⟩
    | none => none

/-! ## Evaluation loop -/

/-- Modelled from the spec (§4.4 Evaluation Loop): one run of the
per-image state machine, driven by a click budget (`fuel`), the current
predicted mask, the click history and the IoU trajectory.  Each
iteration: stop when the last recorded IoU has reached the target
(`CONVERGED`); otherwise ask the oracle for a click, stopping if it
returns `none` (`CONVERGED`, no further trajectory entry); otherwise
consume the click through the predictor, recompute the IoU and append it
to the trajectory.  Exhausted fuel is the `BUDGET_EXHAUSTED` state.  The
predictor is abstracted as a total function from the click history to
the binarized predicted mask; inference failures (`FAILED`) are out of
scope of this model. -/
def evalStep {h w : Nat} (gt : Mask h w) (predict : List Click → Mask h w)
    (target_iou : ℚ) :
    Nat → Mask h w → List Click → List ℚ → List ℚ × List Click
  | 0, _, hist, traj => (traj, hist)
  | fuel + 1, cur, hist, traj =>
    let done := match traj.getLast? with
      | some v => decide (target_iou ≤ v)
      | none => false
    if done then (traj, hist)
    else
      match next_click gt cur hist with
      | none => (traj, hist)
      | some c =>
        let hist2 := hist ++ [c]
        let m2 := predict hist2
        evalStep gt predict target_iou fuel m2 hist2 (traj ++ [iou m2 gt])

/-- Modelled from the spec (§4.4): evaluate a single image, starting
from the all-background prediction with empty history and trajectory,
issuing at most `max_clicks` clicks.  Returns the IoU trajectory and the
click history. -/
def evalLoop {h w : Nat} (gt : Mask h w) (predict : List Click → Mask h w)
    (max_clicks : Nat) (target_iou : ℚ) : List ℚ × List Click :=
  evalStep gt predict target_iou max_clicks (fun _ _ => false) [] []

/-! ## Metric aggregation -/

/-- Modelled from the spec (§4.5): 0-based index of the first trajectory
entry reaching threshold `t`, if any. -/
def firstReach (t : ℚ) : List ℚ → Option Nat
  | [] => none
  | v :: rest => if t ≤ v then some 0 else (firstReach t rest).map (· + 1)

/-- Modelled from the spec (§4.5): Number of Clicks to reach threshold
`t` — the 1-based first index reaching `t`; when no entry reaches `t`
the image contributes the click budget `B`. -/
def noc (t : ℚ) (B : Nat) (traj : List ℚ) : Nat :=
  match firstReach t traj with
  | some i => i + 1
  | none => B

/-- Modelled from the spec (§4.5): an image is over budget for threshold
`t` when no trajectory entry reaches `t`. -/
def overBudget (t : ℚ) (traj : List ℚ) : Bool :=
  traj.all (fun v => decide (v < t))

/-- Modelled from the spec (§4.5): `mean_NoC(t)` — average over images
of `NoC(image, t)`, over-budget images contributing `B`. -/
def mean_NoC (t : ℚ) (B : Nat) (trajs : List (List ℚ)) : ℚ :=
  ((trajs.map (fun traj => (noc t B traj : ℚ))).sum) / (trajs.length : ℚ)

/-- Modelled from the spec (§4.5): number of images whose trajectory
never reaches threshold `t`. -/
def over_budget_count (t : ℚ) (trajs : List (List ℚ)) : Nat :=
  (trajs.filter (fun traj => overBudget t traj)).length

/-! ## Driver script (`scripts/evaluate_model.py`) -/

/-- Error taxonomy of the design document (§7); the driver script never
raises any of these. -/
inductive SetupError where
  | configurationError : SetupError
  deriving DecidableEq, Repr

/-- The argument record produced by `parse_args` (the fields relevant to
the embedded logic). -/
structure Args where
  mode : String
  n_clicks : Nat
  thresh : ℚ
  target_iou : ℚ
  datasets : String
  deriving DecidableEq, Repr

/-- Embedded from `scripts/evaluate_model.py`, `parse_args` (lines
19–55): the supplied `--target-iou` is clamped by
`args.target_iou = max(0.8, args.target_iou)`; no validation of
`target_iou` or `n_clicks` is performed and no error is ever raised, so
the result is always `Except.ok`. -/
def parse_args (mode : String) (n_clicks : Nat) (thresh : ℚ)
    (target_iou : ℚ) (datasets : String) : Except SetupError Args :=
  Except.ok
    { mode := mode
      n_clicks := n_clicks
      thresh := thresh
      target_iou := max (mkRat 8 10) target_iou
      datasets := datasets }

/-- Embedded from `numpy.arange(start, stop, step)` (for positive
`step`, exact rational arithmetic): the `⌈(stop - start) / step⌉` values
`start, start + step, start + 2·step, ...`. -/
def arange (start stop step : ℚ) : List ℚ :=
  (List.range (Int.toNat ⌈(stop - start) / step⌉)).map
    (fun (k : Nat) => start + (k : ℚ) * step)

/-- Embedded from `scripts/evaluate_model.py`, `save_results` (line 101):
`iou_thrs = np.arange(0.8, min(0.95, args.target_iou) + 0.001, 0.05)`. -/
def iou_thrs (target_iou : ℚ) : List ℚ :=
  arange (mkRat 8 10) (min (mkRat 95 100) target_iou + mkRat 1 1000) (mkRat 5 100)

/-- Embedded from `scripts/evaluate_model.py`, `main` (line 72):
`zoom_in_target_size = 600 if dataset_name == 'DAVIS' else 400`. -/
def zoom_in_target_size (dataset_name : String) : Nat :=
  if dataset_name = "DAVIS" then 600 else 400

/-! ## Basic lemmas about the pixel grid -/

theorem mem_codes {h w i : Nat} : i ∈ codes h w ↔ i < h * w := List.mem_range

theorem encode_lt {h w : Nat} (r : Fin h) (c : Fin w) :
    r.val * w + c.val < h * w :=
  calc r.val * w + c.val < r.val * w + w := Nat.add_lt_add_left c.isLt _
    _ = (r.val + 1) * w := by ring
    _ ≤ h * w := Nat.mul_le_mul_right _ r.isLt

theorem encode_div {h w : Nat} (r : Fin h) (c : Fin w) :
    (r.val * w + c.val) / w = r.val := by
  have hw : 0 < w := c.pos
  rw [Nat.mul_comm, Nat.add_comm, Nat.add_mul_div_left _ _ hw,
    Nat.div_eq_of_lt c.isLt, Nat.zero_add]

theorem encode_mod {h w : Nat} (r : Fin h) (c : Fin w) :
    (r.val * w + c.val) % w = c.val := by
  rw [Nat.mul_comm, Nat.mul_add_mod, Nat.mod_eq_of_lt c.isLt]

theorem maskAt_encode {h w : Nat} (m : Mask h w) (r : Fin h) (c : Fin w) :
    maskAt m (r.val * w + c.val) = m r c := by
  unfold maskAt
  rw [encode_div, encode_mod]
  simp [r.isLt, c.isLt]

theorem area_eq_zero_iff {h w : Nat} (m : Mask h w) :
    area m = 0 ↔ ∀ (r : Fin h) (c : Fin w), m r c = false := by
  unfold area
  rw [List.length_eq_zero, List.filter_eq_nil_iff]
  constructor
  · intro H r c
    have hmem := mem_codes.mpr (encode_lt r c)
    have := H _ hmem
    rw [maskAt_encode] at this
    simpa using this
  · intro H i _
    simp only [Bool.not_eq_true]
    unfold maskAt
    split
    · split
      · exact H _ _
      · rfl
    · rfl

theorem exists_true_of_area_ne_zero {h w : Nat} (m : Mask h w)
    (hm : area m ≠ 0) : ∃ i ∈ codes h w, maskAt m i = true := by
  unfold area at hm
  have hne : (codes h w).filter (fun i => maskAt m i) ≠ [] := by
    intro he
    rw [he] at hm
    exact hm rfl
  obtain ⟨x, hx⟩ := List.exists_mem_of_ne_nil _ hne
  have hx' := List.mem_filter.mp hx
  exact ⟨x, hx'.1, by simpa using hx'.2⟩

/-! ## Oracle lemmas -/

theorem argmaxList_eq_none {key : Nat → Nat} {l : List Nat} :
    argmaxList key l = none ↔ l = [] := by
  cases l with
  | nil => simp [argmaxList]
  | cons a l =>
    simp only [argmaxList]
    cases argmaxList key l with
    | none => simp
    | some b =>
      constructor
      · intro hcontra
        by_cases hab : key a < key b <;> simp [hab] at hcontra
      · intro hcontra
        exact absurd hcontra (List.cons_ne_nil a l)

theorem both_areas_zero_iff {h w : Nat} (gt pred : Mask h w) :
    (area (fnMask gt pred) = 0 ∧ area (fpMask gt pred) = 0) ↔ pred = gt := by
  rw [area_eq_zero_iff, area_eq_zero_iff]
  constructor
  · intro ⟨hfn, hfp⟩
    funext r c
    have h1 := hfn r c
    have h2 := hfp r c
    simp only [fnMask, fpMask] at h1 h2
    cases hg : gt r c <;> cases hp : pred r c <;> simp_all
  · intro he
    subst he
    constructor <;> intro r c <;> simp [fnMask, fpMask]

theorem area_chosenRegion_ne_zero {h w : Nat} (gt pred : Mask h w)
    (hne : ¬(area (fnMask gt pred) = 0 ∧ area (fpMask gt pred) = 0)) :
    area (chosenRegion gt pred) ≠ 0 := by
  unfold chosenRegion
  split
  · next hle => omega
  · next hle => omega

/-- C1: the oracle's `next_click` returns `None` if and only if the
predicted mask equals the ground-truth mask exactly — equivalently, if
and only if both the false-negative and false-positive error masks are
empty — for every well-formed pair of masks and any click history. -/
theorem C1_next_click_none_iff {h w : Nat} (gt pred : Mask h w)
    (click_history : List Click) :
    (next_click gt pred click_history = none ↔ pred = gt)
    ∧ (next_click gt pred click_history = none ↔
        area (fnMask gt pred) = 0 ∧ area (fpMask gt pred) = 0) := by
  have key : next_click gt pred click_history = none ↔
      area (fnMask gt pred) = 0 ∧ area (fpMask gt pred) = 0 := by
    simp only [next_click]
    split
    · next hz => simpa using hz
    · next hz =>
      have hreg := area_chosenRegion_ne_zero gt pred hz
      obtain ⟨i, hmem, hreg_i⟩ :=
        exists_true_of_area_ne_zero (chosenRegion gt pred) hreg
      have hcand : i ∈ (codes h w).filter
          (fun i => maskAt (chosenRegion gt pred) i) :=
        List.mem_filter.mpr ⟨hmem, by simpa using hreg_i⟩
      have hnil : (codes h w).filter
          (fun i => maskAt (chosenRegion gt pred) i) ≠ [] :=
        List.ne_nil_of_mem hcand
      constructor
      · intro hcontra
        rcases hsome : argmaxList (distTransform (chosenRegion gt pred))
            ((codes h w).filter (fun i => maskAt (chosenRegion gt pred) i)) with
          _ | j
        · exact absurd (argmaxList_eq_none.mp hsome) hnil
        · rw [hsome] at hcontra
          simp at hcontra
      · intro hcontra
        exact absurd hcontra hz
  exact ⟨key.trans (both_areas_zero_iff gt pred), key⟩

theorem argmaxList_le {key : Nat → Nat} {l : List Nat} {r : Nat}
    (h : argmaxList key l = some r) : ∀ x ∈ l, key x ≤ key r := by
  induction l generalizing r with
  | nil => simp [argmaxList] at h
  | cons a l ih =>
    simp only [argmaxList] at h
    cases hl : argmaxList key l with
    | none =>
      rw [hl] at h
      cases h
      have hnil : l = [] := argmaxList_eq_none.mp hl
      subst hnil
      simp
    | some b =>
      rw [hl] at h
      dsimp only at h
      by_cases hab : key a < key b
      · rw [if_pos hab] at h
        cases h
        intro x hx
        rcases List.mem_cons.mp hx with rfl | hxl
        · exact Nat.le_of_lt hab
        · exact ih hl x hxl
      · rw [if_neg hab] at h
        cases h
        intro x hx
        rcases List.mem_cons.mp hx with rfl | hxl
        · exact Nat.le_refl _
        · exact Nat.le_trans (ih hl x hxl) (Nat.le_of_not_lt hab)

theorem argmaxList_first {key : Nat → Nat} {l : List Nat} {r : Nat}
    (h : argmaxList key l = some r) :
    ∃ l1 l2, l = l1 ++ r :: l2 ∧ ∀ x ∈ l1, key x < key r := by
  induction l generalizing r with
  | nil => simp [argmaxList] at h
  | cons a l ih =>
    simp only [argmaxList] at h
    cases hl : argmaxList key l with
    | none =>
      rw [hl] at h
      cases h
      exact ⟨[], l, rfl, by simp⟩
    | some b =>
      rw [hl] at h
      dsimp only at h
      by_cases hab : key a < key b
      · rw [if_pos hab] at h
        cases h
        obtain ⟨l1, l2, he, hlt⟩ := ih hl
        refine ⟨a :: l1, l2, by simp [he], ?_⟩
        intro x hx
        rcases List.mem_cons.mp hx with rfl | hxl
        · exact hab
        · exact hlt x hxl
      · rw [if_neg hab] at h
        cases h
        exact ⟨[], l, rfl, by simp⟩

theorem next_click_some_elim {h w : Nat} (gt pred : Mask h w)
    (hist : List Click) (c : Click)
    (hc : next_click gt pred hist = some c) :
    ∃ i, argmaxList (distTransform (chosenRegion gt pred))
        ((codes h w).filter (fun i => maskAt (chosenRegion gt pred) i)) = some i
      ∧ c.row = i / w ∧ c.col = i % w := by
  simp only [next_click] at hc
  split at hc
  · exact absurd hc (by simp)
  · split at hc
    · next i hi =>
      cases hc
      exact ⟨i, hi, rfl, rfl⟩
    · exact absurd hc (by simp)

theorem cand_pairwise {h w : Nat} (region : Mask h w) :
    ((codes h w).filter (fun i => maskAt region i)).Pairwise (· < ·) :=
  List.Pairwise.sublist (List.filter_sublist _) (List.pairwise_lt_range (h * w))

/-- C5: the oracle is deterministic — identical inputs `(gt_mask,
pred_mask, click_history)` always produce the identical click — and the
click maximizes the distance transform over the chosen error region,
with ties in the maximum resolved in row-major order, smallest pixel
index (`row * w + col`) first. -/
theorem C5_next_click_deterministic :
    (∀ (h w : Nat) (gt pred : Mask h w) (click_history : List Click)
        (c1 c2 : Click), next_click gt pred click_history = some c1 →
        next_click gt pred click_history = some c2 → c1 = c2)
    ∧ (∀ (h w : Nat) (gt pred : Mask h w) (click_history : List Click)
        (c : Click), next_click gt pred click_history = some c →
        maskAt (chosenRegion gt pred) (c.row * w + c.col) = true
        ∧ (∀ j ∈ codes h w, maskAt (chosenRegion gt pred) j = true →
            distTransform (chosenRegion gt pred) j
              ≤ distTransform (chosenRegion gt pred) (c.row * w + c.col))
        ∧ (∀ j ∈ codes h w, maskAt (chosenRegion gt pred) j = true →
            distTransform (chosenRegion gt pred) j
              = distTransform (chosenRegion gt pred) (c.row * w + c.col) →
            c.row * w + c.col ≤ j)) := by
  constructor
  · intro h w gt pred hist c1 c2 h1 h2
    exact Option.some.inj (h1.symm.trans h2)
  · intro h w gt pred hist c hc
    obtain ⟨i, hi, hrow, hcol⟩ := next_click_some_elim gt pred hist c hc
    set R := chosenRegion gt pred with hR
    set cand := (codes h w).filter (fun i => maskAt R i) with hcand
    obtain ⟨l1, l2, hdecomp, hl1⟩ := argmaxList_first hi
    have hmemi : i ∈ cand := by
      rw [hdecomp]
      exact List.mem_append_right _ (List.mem_cons_self _ _)
    have hicodes : i ∈ codes h w := (List.mem_filter.mp hmemi).1
    have hiw : i < h * w := mem_codes.mp hicodes
    have hw0 : 0 < w := by
      rcases Nat.eq_zero_or_pos w with rfl | hw0
    -- w = 0 contradicts i < h * 0
      · omega
      · exact hw0
    have henc : c.row * w + c.col = i := by
      rw [hrow, hcol, Nat.mul_comm, Nat.div_add_mod]
    have hmaski : maskAt R i = true := by
      have := (List.mem_filter.mp hmemi).2
      simpa using this
    rw [henc]
    refine ⟨hmaski, ?_, ?_⟩
    · intro j hj hmj
      have hjc : j ∈ cand := List.mem_filter.mpr ⟨hj, by simpa using hmj⟩
      exact argmaxList_le hi j hjc
    · intro j hj hmj hkey
      have hjc : j ∈ cand := List.mem_filter.mpr ⟨hj, by simpa using hmj⟩
      have hpw : cand.Pairwise (· < ·) := cand_pairwise R
      rw [hdecomp] at hpw hjc
      obtain ⟨hp1, hp2, hp12⟩ := List.pairwise_append.mp hpw
      have hcons := List.pairwise_cons.mp hp2
      rcases List.mem_append.mp hjc with hjl1 | hjcons
      · exact absurd hkey (Nat.ne_of_lt (hl1 j hjl1))
      · rcases List.mem_cons.mp hjcons with rfl | hjl2
        · exact Nat.le_refl _
        · exact Nat.le_of_lt (hcons.1 j hjl2)

/-- Witness for C5: the oracle applied to a concrete 2×2 ground truth
with an all-background prediction. -/
theorem C5_next_click_deterministic_witness :
    next_click (fun _ _ => true : Mask 2 2) (fun _ _ => false : Mask 2 2) []
        = some ⟨0, 0, true, 0⟩
    ∧ (⟨0, 0, true, 0⟩ : Click) = ⟨0, 0, true, 0⟩
    ∧ maskAt (chosenRegion (fun _ _ => true : Mask 2 2) (fun _ _ => false))
        (Click.row ⟨0, 0, true, 0⟩ * 2 + Click.col ⟨0, 0, true, 0⟩) = true :=
  ⟨by decide,
   C5_next_click_deterministic.1 2 2 (fun _ _ => true) (fun _ _ => false) []
     ⟨0, 0, true, 0⟩ ⟨0, 0, true, 0⟩ (by decide) (by decide),
   (C5_next_click_deterministic.2 2 2 (fun _ _ => true) (fun _ _ => false) []
     ⟨0, 0, true, 0⟩ (by decide)).1⟩

/-! ## IoU lemmas -/

theorem iou_self {h w : Nat} (m : Mask h w) (hm : area m ≠ 0) :
    iou m m = 1 := by
  have hand : (fun r c => m r c && m r c) = m := by
    funext r c
    exact Bool.and_self _
  have hor : (fun r c => m r c || m r c) = m := by
    funext r c
    exact Bool.or_self _
  simp only [iou, hand, hor]
  rw [if_neg hm]
  exact div_self (by exact_mod_cast hm)

theorem iou_empty {h w : Nat} (p g : Mask h w) (hp : area p = 0)
    (hg : area g = 0) : iou p g = 0 := by
  have hpz := (area_eq_zero_iff p).mp hp
  have hgz := (area_eq_zero_iff g).mp hg
  have hor : (fun r c => p r c || g r c) = (fun _ _ => false : Mask h w) := by
    funext r c
    rw [hpz, hgz]
    rfl
  have hzero : area (fun _ _ => false : Mask h w) = 0 :=
    (area_eq_zero_iff _).mpr (fun _ _ => rfl)
  simp only [iou, hor, hzero, if_pos]

/-- C4: for every non-empty binary mask `m`, `iou m m = 1`; and when
both the predicted and ground-truth masks are empty, `iou` returns `0`
(a defined rational value — there is no division by zero, the
empty-union case is returned explicitly). -/
theorem C4_iou_self_and_empty :
    (∀ (h w : Nat) (m : Mask h w), area m ≠ 0 → iou m m = 1)
    ∧ (∀ (h w : Nat) (p g : Mask h w), area p = 0 → area g = 0 →
        iou p g = 0) :=
  ⟨fun _ _ m hm => iou_self m hm, fun _ _ p g hp hg => iou_empty p g hp hg⟩

/-- Witness for C4: a concrete non-empty 1×1 mask and concrete empty
masks. -/
theorem C4_iou_self_and_empty_witness :
    iou (fun _ _ => true : Mask 1 1) (fun _ _ => true) = 1
    ∧ iou (fun _ _ => false : Mask 1 1) (fun _ _ => false) = 0 :=
  ⟨C4_iou_self_and_empty.1 1 1 (fun _ _ => true) (by decide),
   C4_iou_self_and_empty.2 1 1 (fun _ _ => false) (fun _ _ => false)
     (by decide) (by decide)⟩

/-! ## NoC lemmas -/

theorem firstReach_eq_findIdx (t : ℚ) (traj : List ℚ) :
    firstReach t traj = traj.findIdx? (fun v => decide (t ≤ v)) := by
  induction traj with
  | nil => rfl
  | cons v rest ih =>
    simp only [firstReach, List.findIdx?_cons, List.findIdx?_succ, ih]
    by_cases hv : t ≤ v <;> simp [hv]

theorem noc_eq_of_reach {t : ℚ} {B : Nat} {traj : List ℚ} {i : Nat}
    (hi : i < traj.length) (hreach : t ≤ traj.get ⟨i, hi⟩)
    (hmin : ∀ j (hj : j < i), traj.get ⟨j, Nat.lt_trans hj hi⟩ < t) :
    noc t B traj = i + 1 := by
  have hfr : firstReach t traj = some i := by
    rw [firstReach_eq_findIdx, List.findIdx?_eq_some_iff_getElem]
    refine ⟨hi, ?_, ?_⟩
    · simpa [List.get_eq_getElem] using hreach
    · intro j hj
      have := hmin j hj
      simp only [List.get_eq_getElem] at this
      simpa using not_le.mpr this
  simp [noc, hfr]

theorem noc_eq_budget {t : ℚ} {B : Nat} {traj : List ℚ}
    (hall : ∀ v ∈ traj, v < t) :
    noc t B traj = B ∧ overBudget t traj = true := by
  have hfr : firstReach t traj = none := by
    rw [firstReach_eq_findIdx, List.findIdx?_eq_none_iff]
    intro v hv
    simpa using not_le.mpr (hall v hv)
  constructor
  · simp [noc, hfr]
  · simp only [overBudget, List.all_eq_true, decide_eq_true_eq]
    exact hall

/-- C2: `noc t B traj` is the 1-based minimum index whose trajectory
entry reaches threshold `t`; when no entry reaches `t` the image is over
budget and contributes exactly the budget `B`; in particular on the
trajectory `[0.5, 0.82, 0.91]` the NoC at threshold `0.8` is `2` and at
threshold `0.95` the image is over budget. -/
theorem C2_noc_spec :
    (∀ (t : ℚ) (B : Nat) (traj : List ℚ) (i : Nat) (hi : i < traj.length),
        t ≤ traj.get ⟨i, hi⟩ →
        (∀ j (hj : j < i), traj.get ⟨j, Nat.lt_trans hj hi⟩ < t) →
        noc t B traj = i + 1)
    ∧ (∀ (t : ℚ) (B : Nat) (traj : List ℚ), (∀ v ∈ traj, v < t) →
        noc t B traj = B ∧ overBudget t traj = true)
    ∧ noc 0.8 20 [0.5, 0.82, 0.91] = 2
    ∧ overBudget 0.95 [0.5, 0.82, 0.91] = true := by
  refine ⟨fun t B traj i hi h1 h2 => noc_eq_of_reach hi h1 h2,
          fun t B traj hall => noc_eq_budget hall, ?_, ?_⟩
  · norm_num [noc, firstReach]
  · simp only [overBudget, List.all_eq_true, decide_eq_true_eq]
    intro v hv
    fin_cases hv <;> norm_num

/-- Witness for C2 at the concrete trajectory of the claim. -/
theorem C2_noc_spec_witness :
    (mkRat 8 10 ≤ mkRat 82 100)
    ∧ noc (mkRat 8 10) 20 [mkRat 1 2, mkRat 82 100, mkRat 91 100] = 2 :=
  ⟨by decide,
   C2_noc_spec.1 (mkRat 8 10) 20 [mkRat 1 2, mkRat 82 100, mkRat 91 100] 1
     (by decide) (by decide) (by decide)⟩

/-! ## Mean NoC monotonicity -/

theorem firstReach_mono {t1 t2 : ℚ} (h12 : t1 ≤ t2) {traj : List ℚ}
    {i2 : Nat} (h2 : firstReach t2 traj = some i2) :
    ∃ i1, firstReach t1 traj = some i1 ∧ i1 ≤ i2 := by
  induction traj generalizing i2 with
  | nil => simp [firstReach] at h2
  | cons v rest ih =>
    simp only [firstReach] at h2 ⊢
    by_cases hv2 : t2 ≤ v
    · have hv1 : t1 ≤ v := le_trans h12 hv2
      rw [if_pos hv1]
      exact ⟨0, rfl, Nat.zero_le _⟩
    · rw [if_neg hv2] at h2
      obtain ⟨j2, hj2, hji⟩ := Option.map_eq_some'.mp h2
      by_cases hv1 : t1 ≤ v
      · rw [if_pos hv1]
        exact ⟨0, rfl, Nat.zero_le _⟩
      · rw [if_neg hv1]
        obtain ⟨j1, hj1, hle⟩ := ih hj2
        refine ⟨j1 + 1, by rw [hj1]; rfl, ?_⟩
        omega

theorem noc_mono {t1 t2 : ℚ} {B : Nat} {traj : List ℚ} (h12 : t1 ≤ t2)
    (hob : overBudget t2 traj = false) :
    noc t1 B traj ≤ noc t2 B traj := by
  have hne : firstReach t2 traj ≠ none := by
    intro hnone
    rw [firstReach_eq_findIdx, List.findIdx?_eq_none_iff] at hnone
    have hall : overBudget t2 traj = true := by
      simp only [overBudget, List.all_eq_true, decide_eq_true_eq]
      intro v hv
      have := hnone v hv
      simpa [not_le] using this
    rw [hall] at hob
    cases hob
  rcases hfr2 : firstReach t2 traj with _ | i2
  · exact absurd hfr2 hne
  · obtain ⟨i1, hfr1, hle⟩ := firstReach_mono h12 hfr2
    simp only [noc, hfr1, hfr2]
    omega

theorem sum_noc_mono (t1 t2 : ℚ) (B : Nat) (h12 : t1 ≤ t2) :
    ∀ trajs : List (List ℚ), (∀ traj ∈ trajs, overBudget t2 traj = false) →
    (trajs.map (fun traj => (noc t1 B traj : ℚ))).sum
      ≤ (trajs.map (fun traj => (noc t2 B traj : ℚ))).sum := by
  intro trajs
  induction trajs with
  | nil => intro _; simp
  | cons a l ih =>
    intro hob
    simp only [List.map_cons, List.sum_cons]
    have h1 : noc t1 B a ≤ noc t2 B a :=
      noc_mono h12 (hob a (List.mem_cons_self a l))
    have h2 := ih (fun traj ht => hob traj (List.mem_cons_of_mem a ht))
    have h1q : ((noc t1 B a : Nat) : ℚ) ≤ ((noc t2 B a : Nat) : ℚ) :=
      Nat.cast_le.mpr h1
    linarith

/-- C6: for trajectories none of which is over budget at the higher
threshold, the mean Number of Clicks is monotone in the threshold:
`t1 < t2` implies `mean_NoC t1 ≤ mean_NoC t2`. -/
theorem C6_mean_noc_monotone (trajs : List (List ℚ)) (t1 t2 : ℚ) (B : Nat)
    (h12 : t1 < t2) (hob : ∀ traj ∈ trajs, overBudget t2 traj = false) :
    mean_NoC t1 B trajs ≤ mean_NoC t2 B trajs := by
  unfold mean_NoC
  rcases trajs with _ | ⟨a, l⟩
  · simp
  · have hsum := sum_noc_mono t1 t2 B (le_of_lt h12) (a :: l) hob
    have hlen : (0 : ℚ) < ((a :: l).length : ℚ) := by
      exact_mod_cast Nat.succ_pos l.length
    exact (div_le_div_iff_of_pos_right hlen).mpr hsum


/-- Witness for C6 at concrete thresholds 0.8 < 0.85 and a single
trajectory that reaches both. -/
theorem C6_mean_noc_monotone_witness :
    (mkRat 8 10 < mkRat 17 20)
    ∧ mean_NoC (mkRat 8 10) 20 [[mkRat 1 2, mkRat 82 100, mkRat 91 100]]
        ≤ mean_NoC (mkRat 17 20) 20 [[mkRat 1 2, mkRat 82 100, mkRat 91 100]] :=
  ⟨by decide,
   C6_mean_noc_monotone [[mkRat 1 2, mkRat 82 100, mkRat 91 100]]
     (mkRat 8 10) (mkRat 17 20) 20 (by decide) (by decide)⟩

/-! ## Evaluation loop invariant -/

theorem evalStep_lengths {h w : Nat} (gt : Mask h w)
    (predict : List Click → Mask h w) (target_iou : ℚ) :
    ∀ (fuel : Nat) (cur : Mask h w) (hist : List Click) (traj : List ℚ),
    traj.length = hist.length →
    (evalStep gt predict target_iou fuel cur hist traj).1.length
      = (evalStep gt predict target_iou fuel cur hist traj).2.length
    ∧ (evalStep gt predict target_iou fuel cur hist traj).2.length
      ≤ hist.length + fuel := by
  intro fuel
  induction fuel with
  | zero =>
    intro cur hist traj he
    exact ⟨he, Nat.le_add_right _ _⟩
  | succ fuel ih =>
    intro cur hist traj he
    simp only [evalStep]
    split
    · exact ⟨he, Nat.le_add_right _ _⟩
    · split
      · exact ⟨he, Nat.le_add_right _ _⟩
      · next c heq =>
        have hrec := ih (predict (hist ++ [c])) (hist ++ [c])
          (traj ++ [iou (predict (hist ++ [c])) gt]) (by simp [he])
        refine ⟨hrec.1, ?_⟩
        have h2 := hrec.2
        simp only [List.length_append, List.length_cons, List.length_nil] at h2
        omega

/-- C3: at termination of the evaluation loop, the IoU trajectory has
exactly one entry per issued click (trajectory length equals click
history length) and the number of issued clicks is at most the click
budget `max_clicks`. -/
theorem C3_trajectory_length_invariant (h w : Nat) (gt : Mask h w)
    (predict : List Click → Mask h w) (max_clicks : Nat) (target_iou : ℚ) :
    (evalLoop gt predict max_clicks target_iou).1.length
      = (evalLoop gt predict max_clicks target_iou).2.length
    ∧ (evalLoop gt predict max_clicks target_iou).2.length ≤ max_clicks := by
  have hspec := evalStep_lengths gt predict target_iou max_clicks
    (fun _ _ => false) [] [] rfl
  exact ⟨hspec.1, by simpa using hspec.2⟩

/-! ## Driver claims -/

/-- C7: for every supplied `--target-iou` value, `parse_args` succeeds
and the target IoU it carries is `max 0.8 (supplied value)` — in
particular it is always at least `0.8`. -/
theorem C7_target_iou_clamped (mode : String) (n_clicks : Nat) (thresh : ℚ)
    (target_iou : ℚ) (datasets : String) :
    ∃ a, parse_args mode n_clicks thresh target_iou datasets = Except.ok a
      ∧ a.target_iou = max (mkRat 8 10) target_iou
      ∧ mkRat 8 10 ≤ a.target_iou :=
  ⟨_, rfl, rfl, le_max_left _ _⟩

/-- C8 counterexample: with `--target-iou 0.5` — outside the valid range
— setup does not fail with a configuration error; `parse_args` succeeds
and silently clamps the value to `0.8`. -/
theorem C8_no_error_counterexample :
    parse_args "NoBRS" 20 (mkRat 49 100) (mkRat 1 2)
        "GrabCut,Berkeley,DAVIS,COCO_MVal,SBD"
      = Except.ok
          { mode := "NoBRS", n_clicks := 20, thresh := mkRat 49 100,
            target_iou := mkRat 8 10,
            datasets := "GrabCut,Berkeley,DAVIS,COCO_MVal,SBD" } := by
  have hm : max (mkRat 8 10) (mkRat 1 2) = mkRat 8 10 :=
    max_eq_left (by decide)
  simp [parse_args, hm]

/-- C8 (amended): `parse_args` never fails — also when `target_iou` or
`max_clicks` is outside its valid range it returns `Except.ok`, silently
clamping `target_iou` to `max 0.8 (supplied)` and passing `n_clicks`
through without validation; no `ConfigurationError` is ever raised. -/
theorem C8_parse_args_never_fails (mode : String) (n_clicks : Nat)
    (thresh : ℚ) (target_iou : ℚ) (datasets : String) :
    ∃ a, parse_args mode n_clicks thresh target_iou datasets = Except.ok a
      ∧ a.target_iou = max (mkRat 8 10) target_iou
      ∧ a.n_clicks = n_clicks :=
  ⟨_, rfl, rfl, rfl⟩

/-! ## Threshold grid -/

theorem iou_thrs_09 :
    iou_thrs (mkRat 9 10) = [mkRat 4 5, mkRat 17 20, mkRat 9 10] := by
  have hmin : min (mkRat 95 100) (mkRat 9 10) = mkRat 9 10 :=
    min_eq_right (by decide)
  have hceil :
      Int.toNat ⌈(min (mkRat 95 100) (mkRat 9 10) + mkRat 1 1000 - mkRat 8 10)
        / mkRat 5 100⌉ = 3 := by
    have h3 : ⌈(mkRat 9 10 + mkRat 1 1000 - mkRat 8 10) / mkRat 5 100⌉
        = (3 : ℤ) := by
      rw [Int.ceil_eq_iff]
      constructor <;> norm_num [Rat.mkRat_eq_div]
    rw [hmin, h3]
    rfl
  have hr : List.range 3 = [0, 1, 2] := rfl
  simp only [iou_thrs, arange, hceil, hr, List.map_cons, List.map_nil]
  norm_num [Rat.mkRat_eq_div]

theorem iou_thrs_08495 :
    iou_thrs (mkRat 8495 10000) = [mkRat 4 5, mkRat 17 20] := by
  have hmin : min (mkRat 95 100) (mkRat 8495 10000) = mkRat 8495 10000 :=
    min_eq_right (by decide)
  have hceil :
      Int.toNat ⌈(min (mkRat 95 100) (mkRat 8495 10000) + mkRat 1 1000
        - mkRat 8 10) / mkRat 5 100⌉ = 2 := by
    have h2 : ⌈(mkRat 8495 10000 + mkRat 1 1000 - mkRat 8 10) / mkRat 5 100⌉
        = (2 : ℤ) := by
      rw [Int.ceil_eq_iff]
      constructor <;> norm_num [Rat.mkRat_eq_div]
    rw [hmin, h2]
    rfl
  have hr : List.range 2 = [0, 1] := rfl
  simp only [iou_thrs, arange, hceil, hr, List.map_cons, List.map_nil]
  norm_num [Rat.mkRat_eq_div]

/-- C9 counterexample: at the clamped target IoU `0.8495` the reported
threshold list is `[0.8, 0.85]`, and the reported threshold `0.85`
strictly exceeds `min 0.95 target_iou = 0.8495` — the grid is not
bounded by `min 0.95 target_iou`, refuting the claim as stated. -/
theorem C9_grid_counterexample :
    (mkRat 17 20 ∈ iou_thrs (mkRat 8495 10000))
    ∧ min (mkRat 95 100) (mkRat 8495 10000) < mkRat 17 20
    ∧ mkRat 8 10 ≤ mkRat 8495 10000 := by
  refine ⟨?_, ?_, by decide⟩
  · rw [iou_thrs_08495]
    simp
  · rw [min_eq_right (by decide : (mkRat 8495 10000 : ℚ) ≤ mkRat 95 100)]
    decide

/-- C9 (amended): for every clamped `target_iou ≥ 0.8`, every reported
threshold is a grid point `0.8 + k·0.05`, lies in `[0.8, 0.95]`, and is
strictly below `min 0.95 target_iou + 0.001` (it may exceed
`min 0.95 target_iou` itself by less than `0.001`). -/
theorem C9_thresholds_in_range (target_iou : ℚ)
    (ht : mkRat 8 10 ≤ target_iou) :
    ∀ x ∈ iou_thrs target_iou,
      (∃ k : Nat, x = mkRat 8 10 + (k : ℚ) * mkRat 5 100)
      ∧ mkRat 8 10 ≤ x ∧ x ≤ mkRat 95 100
      ∧ x < min (mkRat 95 100) target_iou + mkRat 1 1000 := by
  intro x hx
  simp only [iou_thrs, arange] at hx
  obtain ⟨k, hk, rfl⟩ := List.mem_map.mp hx
  rw [List.mem_range] at hk
  have e8 : mkRat 8 10 = (4 : ℚ) / 5 := by norm_num [Rat.mkRat_eq_div]
  have e95 : mkRat 95 100 = (19 : ℚ) / 20 := by norm_num [Rat.mkRat_eq_div]
  have e5 : mkRat 5 100 = (1 : ℚ) / 20 := by norm_num [Rat.mkRat_eq_div]
  have e1 : mkRat 1 1000 = (1 : ℚ) / 1000 := by norm_num [Rat.mkRat_eq_div]
  have h5 : (0 : ℚ) < mkRat 5 100 := by rw [e5]; norm_num
  have hkq : (k : ℚ) * mkRat 5 100
      < min (mkRat 95 100) target_iou + mkRat 1 1000 - mkRat 8 10 := by
    have hint : (k : ℤ)
        < ⌈(min (mkRat 95 100) target_iou + mkRat 1 1000 - mkRat 8 10)
            / mkRat 5 100⌉ := Int.lt_toNat.mp hk
    have hq : ((k : ℤ) : ℚ)
        < (min (mkRat 95 100) target_iou + mkRat 1 1000 - mkRat 8 10)
            / mkRat 5 100 := Int.lt_ceil.mp hint
    push_cast at hq
    calc (k : ℚ) * mkRat 5 100
        < ((min (mkRat 95 100) target_iou + mkRat 1 1000 - mkRat 8 10)
            / mkRat 5 100) * mkRat 5 100 :=
          mul_lt_mul_of_pos_right hq h5
      _ = min (mkRat 95 100) target_iou + mkRat 1 1000 - mkRat 8 10 :=
          div_mul_cancel₀ _ (ne_of_gt h5)
  have hk0 : (0 : ℚ) ≤ (k : ℚ) * mkRat 5 100 :=
    mul_nonneg (Nat.cast_nonneg k) (le_of_lt h5)
  refine ⟨⟨k, rfl⟩, by linarith, ?_, by linarith⟩
  have hminle : min (mkRat 95 100) target_iou ≤ mkRat 95 100 :=
    min_le_left _ _
  have hk50 : 50 * (k : ℚ) < 151 := by
    simp only [e5, e95, e1, e8] at hkq hminle
    linarith [hkq, hminle]
  have hk3 : k ≤ 3 := by
    have : (50 * k : ℕ) < 151 := by exact_mod_cast hk50
    omega
  have hk3q : (k : ℚ) ≤ 3 := by exact_mod_cast hk3
  rw [e5, e95, e8]
  linarith

theorem mem_85_iou_thrs_09 : mkRat 17 20 ∈ iou_thrs (mkRat 9 10) := by
  rw [iou_thrs_09]
  simp

theorem le_08_09 : mkRat 8 10 ≤ mkRat 9 10 := by decide

/-- Witness for C9 (amended) at the clamped target IoU `0.9` and the
reported threshold `0.85`. -/
theorem C9_thresholds_in_range_witness :
    (mkRat 8 10 ≤ mkRat 9 10) ∧ (mkRat 17 20 ∈ iou_thrs (mkRat 9 10))
    ∧ (mkRat 8 10 ≤ mkRat 17 20 ∧ mkRat 17 20 ≤ mkRat 95 100) :=
  ⟨le_08_09, mem_85_iou_thrs_09,
   ⟨(C9_thresholds_in_range (mkRat 9 10) le_08_09 (mkRat 17 20)
       mem_85_iou_thrs_09).2.1,
    (C9_thresholds_in_range (mkRat 9 10) le_08_09 (mkRat 17 20)
       mem_85_iou_thrs_09).2.2.1⟩⟩

/-- C10: the predictor's zoom-in target crop size is `600` if and only
if the dataset name is exactly `"DAVIS"`; for every other dataset name
it is `400`. -/
theorem C10_zoom_target_size (dataset_name : String) :
    (zoom_in_target_size dataset_name = 600 ↔ dataset_name = "DAVIS")
    ∧ (dataset_name ≠ "DAVIS" → zoom_in_target_size dataset_name = 400) := by
  unfold zoom_in_target_size
  by_cases hd : dataset_name = "DAVIS" <;> simp [hd]

/-- Witness for C10 at the dataset names `"DAVIS"` and `"GrabCut"`. -/
theorem C10_zoom_target_size_witness :
    zoom_in_target_size "DAVIS" = 600 ∧ zoom_in_target_size "GrabCut" = 400 :=
  ⟨(C10_zoom_target_size "DAVIS").1.mpr rfl,
   (C10_zoom_target_size "GrabCut").2 (by decide)⟩

end FBRS
